import Mathlib

/-!
# Verification of the jyt transcoding core

A shallow embedding of `src/main.rs`: the format registry, the per-format
multi-document stream drivers, the output-style policy, and the top-level
error policy are translated from the source.  The serde parsers and
serializers the source delegates to (serde_json, serde_yaml, toml,
serde_transcode) are external crates; where a claim depends on their
behaviour they are modelled from the spec, as executable codecs over an
explicit document value type, and each such definition says so in its
doc comment.
-/

set_option maxRecDepth 4000

/-! ## Errors

Modelled from the spec: the error taxonomy of section 7.  The source uses
`Box<dyn Error>` values; the constructors here stand for the distinguishable
cases the claims mention. -/

/-- A transcoding-stage error: malformed input surfaced by a parser, or a
TOML input slice that is not valid UTF-8 (`str::from_utf8` failure). -/
inductive TranscodeErr where
  | malformedInput
  | invalidUtf8
deriving DecidableEq, Repr

/-- A configuration-stage error, from `Format::from_str` or `Opt::parse_to`. -/
inductive OptErr where
  | unrecognizedFormat (tok : String)
  | unsupportedOutput (f : String)
deriving DecidableEq, Repr

/-- Abstraction of `std::io::ErrorKind`: the broken-pipe kind the source
singles out, and a sample of the other kinds. -/
inductive IOErrorKind where
  | brokenPipe
  | notFound
  | permissionDenied
  | otherKind
deriving DecidableEq, Repr

/-- A run-level error as `main` sees it: an I/O error of some kind
(downcastable to `io::Error`), or any other boxed error. -/
inductive RunError where
  | ioError (k : IOErrorKind)
  | transcodeError (e : TranscodeErr)
deriving DecidableEq, Repr

/-- What the process reports: silent success, or a surfaced error. -/
inductive ExitStatus where
  | success
  | failureWith (e : RunError)
deriving DecidableEq, Repr

/-- From src/main.rs `is_broken_pipe`: the error downcasts to an `io::Error`
whose kind is `BrokenPipe`. -/
def is_broken_pipe : RunError → Bool
  | .ioError .brokenPipe => true
  | _ => false

/-- From src/main.rs `main`: a failed run whose error is a broken pipe
returns silently; any other error is surfaced and the process exits 1. -/
def mainResult : Except RunError Unit → ExitStatus
  | .ok _ => .success
  | .error e => if is_broken_pipe e then .success else .failureWith e

/-! ## Format registry (from src/main.rs, `enum Format` and friends) -/

/-- The closed enumeration of supported formats. -/
inductive Format where
  | Json
  | Yaml
  | Toml
deriving DecidableEq, Repr

/-- From src/main.rs `Format::can_output`: JSON and YAML can be written,
TOML is input-only. -/
def Format.can_output : Format → Bool
  | .Json | .Yaml => true
  | .Toml => false

/-- From src/main.rs `Display for Format`. -/
def Format.name : Format → String
  | .Json => "json"
  | .Yaml => "yaml"
  | .Toml => "toml"

/-- From src/main.rs `FromStr for Format`: full name or single-character
abbreviation; anything else is an `UnrecognizedFormat` error carrying the
offending token. -/
def Format.from_str (s : String) : Except OptErr Format :=
  if s = "j" ∨ s = "json" then .ok .Json
  else if s = "y" ∨ s = "yaml" then .ok .Yaml
  else if s = "t" ∨ s = "toml" then .ok .Toml
  else .error (.unrecognizedFormat s)

/-- From src/main.rs `Opt::parse_to`: parse the format name, then reject
formats that cannot be used as output. -/
def Opt.parse_to (s : String) : Except OptErr Format :=
  match Format.from_str s with
  | .error e => .error e
  | .ok f => if f.can_output then .ok f else .error (.unsupportedOutput f.name)

/-- The resolved `-t` option: structopt supplies the default value "json"
when the flag is absent, and it goes through `Opt::parse_to` either way. -/
def resolveTo (toArg : Option String) : Except OptErr Format :=
  Opt.parse_to (toArg.getD "json")

/-! ## Output style policy (from src/main.rs `jyt`) -/

/-- The two serde_json formatters the source chooses between. -/
inductive JsonStyle where
  | pretty
  | compact
deriving DecidableEq, Repr

/-- From src/main.rs `jyt`: with JSON output, the pretty formatter is used
exactly when stdout is an interactive terminal.  Evaluated once per run,
before the stream driver starts. -/
def chooseJsonStyle (isTerminal : Bool) : JsonStyle :=
  if isTerminal then .pretty else .compact

/-! ## Documents

Modelled from the spec: the transient document value of section 3 — scalars
(null, boolean, integer, string), sequences, and mappings whose key order is
significant.  Floating-point scalars are outside this embedding.  Mutually
inductive so that structural induction over nested containers is direct. -/

mutual

/-- One self-contained document value. -/
inductive Value where
  | vnull
  | vbool (b : Bool)
  | vint (n : Int)
  | vstr (s : List Char)
  | varr (items : Elems)
  | vobj (entries : Fields)

/-- The elements of a sequence, in order. -/
inductive Elems where
  | nil
  | cons (head : Value) (tail : Elems)

/-- The entries of a mapping, in insertion order. -/
inductive Fields where
  | nil
  | cons (key : List Char) (val : Value) (tail : Fields)

end

mutual

/-- Structural size of a value, used as a parser fuel bound. -/
def vsize : Value → Nat
  | .vnull | .vbool _ | .vint _ | .vstr _ => 1
  | .varr items => esize items + 1
  | .vobj entries => fsize entries + 1

def esize : Elems → Nat
  | .nil => 1
  | .cons v t => vsize v + esize t

def fsize : Fields → Nat
  | .nil => 1
  | .cons _ v t => vsize v + fsize t

end

/-- A character JSON may carry unescaped or behind a short escape: no raw
control characters (serde_json would use a `\u` escape for those, which this
embedding does not model). -/
def plainChar (c : Char) : Bool := decide (32 ≤ c.toNat)

/-- A string scalar within the modelled universe. -/
def wfStr (s : List Char) : Bool := s.all plainChar

mutual

/-- A document within the modelled universe: every string scalar and every
mapping key is free of raw control characters. -/
def wfValue : Value → Bool
  | .vnull | .vbool _ | .vint _ => true
  | .vstr s => wfStr s
  | .varr items => wfElems items
  | .vobj entries => wfFields entries

def wfElems : Elems → Bool
  | .nil => true
  | .cons v t => wfValue v && wfElems t

def wfFields : Fields → Bool
  | .nil => true
  | .cons k v t => wfStr k && wfValue v && wfFields t

end

mutual

/-- Modelled from the spec: the Transcoding Bridge's depth-first structural
copy — scalars are forwarded with their type preserved, containers are
reopened on the sink and their contents copied recursively, mapping entries
in source order. -/
def transcodeValue : Value → Value
  | .vnull => .vnull
  | .vbool b => .vbool b
  | .vint n => .vint n
  | .vstr s => .vstr s
  | .varr items => .varr (transcodeElems items)
  | .vobj entries => .vobj (transcodeFields entries)

def transcodeElems : Elems → Elems
  | .nil => .nil
  | .cons v t => .cons (transcodeValue v) (transcodeElems t)

def transcodeFields : Fields → Fields
  | .nil => .nil
  | .cons k v t => .cons k (transcodeValue v) (transcodeFields t)

end

/-! ## JSON text: characters and digits -/

/-- The JSON whitespace characters serde_json skips between tokens. -/
def isWsCh (c : Char) : Bool :=
  c = ' ' || c = '\n' || c = '\t' || c = '\r'

/-- An ASCII decimal digit. -/
def isDig (c : Char) : Bool := decide (48 ≤ c.toNat ∧ c.toNat ≤ 57)

/-- The digit character for `k < 10`. -/
def digitCh (k : Nat) : Char := Char.ofNat (48 + k)

/-- The numeric value of a digit character. -/
def digVal (c : Char) : Nat := c.toNat - 48

/-- Skip leading JSON whitespace. -/
def skipWs (cs : List Char) : List Char := cs.dropWhile isWsCh

/-- Decimal digit characters, most significant first; the fuel is spent one
unit per digit, so any fuel above the value suffices. -/
def natCharsGo : Nat → Nat → List Char
  | 0, _ => []
  | f + 1, n => if n < 10 then [digitCh n] else natCharsGo f (n / 10) ++ [digitCh (n % 10)]

/-- Decimal digit characters of `n`, most significant first. -/
def natChars (n : Nat) : List Char := natCharsGo (n + 1) n

/-- Split a leading run of digits off the input. -/
def grabDigits : List Char → List Char × List Char
  | [] => ([], [])
  | c :: cs =>
    if isDig c then
      let (ds, r) := grabDigits cs
      (c :: ds, r)
    else ([], c :: cs)

/-- Accumulate a digit run into its value, most significant first. -/
def digitsVal : List Char → Nat → Nat
  | [], acc => acc
  | c :: cs, acc => digitsVal cs (acc * 10 + digVal c)

/-- Read a nonempty digit run as a natural number. -/
def readNat (cs : List Char) : Option (Nat × List Char) :=
  match grabDigits cs with
  | ([], _) => none
  | (ds, r) => some (digitsVal ds 0, r)

/-- The decimal characters of an integer: optional sign, then digits. -/
def intChars (n : Int) : List Char :=
  if n < 0 then '-' :: natChars n.natAbs else natChars n.toNat

/-! ## JSON rendering (compact)

Modelled from the spec: the compact serde_json formatter — no interior
whitespace, strings quoted with the short escapes, containers bracketed
with comma separators, key and value joined by a colon. -/

/-- One string character, escaped as the compact serializer writes it. -/
def escCh (c : Char) : List Char :=
  if c = '"' then ['\\', '"']
  else if c = '\\' then ['\\', '\\']
  else [c]

/-- Escape a whole string body. -/
def escBody : List Char → List Char
  | [] => []
  | c :: cs => escCh c ++ escBody cs

/-- A quoted, escaped JSON string. -/
def quoteStr (s : List Char) : List Char :=
  '"' :: (escBody s ++ ['"'])

mutual

/-- Compact JSON text of a value. -/
def renderJson : Value → List Char
  | .vnull => ['n', 'u', 'l', 'l']
  | .vbool true => ['t', 'r', 'u', 'e']
  | .vbool false => ['f', 'a', 'l', 's', 'e']
  | .vint n => intChars n
  | .vstr s => quoteStr s
  | .varr items => '[' :: (renderElems items ++ [']'])
  | .vobj entries => '\x7b' :: (renderFields entries ++ ['\x7d'])

def renderElems : Elems → List Char
  | .nil => []
  | .cons v t => renderJson v ++ renderElemsTail t

def renderElemsTail : Elems → List Char
  | .nil => []
  | .cons v t => ',' :: (renderJson v ++ renderElemsTail t)

def renderFields : Fields → List Char
  | .nil => []
  | .cons k v t => quoteStr k ++ ':' :: (renderJson v ++ renderFieldsTail t)

def renderFieldsTail : Fields → List Char
  | .nil => []
  | .cons k v t => ',' :: (quoteStr k ++ ':' :: (renderJson v ++ renderFieldsTail t))

end

/-! ## JSON parsing

Modelled from the spec: a recursive-descent reader with the observable
behaviour the spec ascribes to serde_json on the modelled universe —
whitespace between tokens, self-delimiting values, native scalar types
preserved.  Fuel makes totality structural; every entry point supplies
more fuel than the value's structural size needs. -/

/-- Undo one short escape. -/
def unescCh (c : Char) : Option Char :=
  if c = '"' then some '"'
  else if c = '\\' then some '\\'
  else if c = '/' then some '/'
  else if c = 'n' then some '\n'
  else if c = 't' then some '\t'
  else if c = 'r' then some '\r'
  else none

/-- Read a string body up to its closing quote.  Raw control characters are
rejected, as serde_json rejects them. -/
def readStrBody : List Char → Option (List Char × List Char)
  | [] => none
  | c :: r =>
    if c = '"' then some ([], r)
    else if c = '\\' then
      match r with
      | [] => none
      | e :: r2 =>
        match unescCh e with
        | none => none
        | some c2 =>
          match readStrBody r2 with
          | none => none
          | some (s, r3) => some (c2 :: s, r3)
    else if c.toNat < 32 then none
    else
      match readStrBody r with
      | none => none
      | some (s, r2) => some (c :: s, r2)

/-- Require an exact run of characters (the tail of a keyword). -/
def expectLit : List Char → List Char → Option (List Char)
  | [], r => some r
  | e :: es, c :: r => if c = e then expectLit es r else none
  | _ :: _, [] => none

mutual

/-- Read one JSON value, skipping leading whitespace. -/
def parseJsonVal : Nat → List Char → Option (Value × List Char)
  | 0, _ => none
  | f + 1, cs =>
    match skipWs cs with
    | [] => none
    | c :: r =>
      if c = 'n' then
        match expectLit ['u', 'l', 'l'] r with
        | none => none
        | some r2 => some (.vnull, r2)
      else if c = 't' then
        match expectLit ['r', 'u', 'e'] r with
        | none => none
        | some r2 => some (.vbool true, r2)
      else if c = 'f' then
        match expectLit ['a', 'l', 's', 'e'] r with
        | none => none
        | some r2 => some (.vbool false, r2)
      else if c = '"' then
        match readStrBody r with
        | none => none
        | some (s, r2) => some (.vstr s, r2)
      else if c = '[' then
        match skipWs r with
        | [] => none
        | c2 :: r2 =>
          if c2 = ']' then some (.varr .nil, r2)
          else
            match parseArrItems f (c2 :: r2) with
            | none => none
            | some (es, r3) => some (.varr es, r3)
      else if c = '\x7b' then
        match skipWs r with
        | [] => none
        | c2 :: r2 =>
          if c2 = '\x7d' then some (.vobj .nil, r2)
          else
            match parseObjItems f (c2 :: r2) with
            | none => none
            | some (fs, r3) => some (.vobj fs, r3)
      else if c = '-' then
        match readNat r with
        | none => none
        | some (n, r2) => some (.vint (-(n : Int)), r2)
      else if isDig c then
        match readNat (c :: r) with
        | none => none
        | some (n, r2) => some (.vint (n : Int), r2)
      else none

/-- Read the remaining elements of a nonempty array, the first starting at
the current offset. -/
def parseArrItems : Nat → List Char → Option (Elems × List Char)
  | 0, _ => none
  | f + 1, cs =>
    match parseJsonVal f cs with
    | none => none
    | some (v, r) =>
      match skipWs r with
      | [] => none
      | c :: r2 =>
        if c = ',' then
          match parseArrItems f r2 with
          | none => none
          | some (es, r3) => some (.cons v es, r3)
        else if c = ']' then some (.cons v .nil, r2)
        else none

/-- Read the remaining entries of a nonempty object, the first key starting
at the current offset. -/
def parseObjItems : Nat → List Char → Option (Fields × List Char)
  | 0, _ => none
  | f + 1, cs =>
    match skipWs cs with
    | [] => none
    | c :: r =>
      if c = '"' then
        match readStrBody r with
        | none => none
        | some (k, r1) =>
          match skipWs r1 with
          | [] => none
          | c2 :: r2 =>
            if c2 = ':' then
              match parseJsonVal f r2 with
              | none => none
              | some (v, r3) =>
                match skipWs r3 with
                | [] => none
                | c3 :: r4 =>
                  if c3 = ',' then
                    match parseObjItems f r4 with
                    | none => none
                    | some (fs, r5) => some (.cons k v fs, r5)
                  else if c3 = '\x7d' then some (.cons k v .nil, r4)
                  else none
            else none
      else none

end

/-! ## JSON rendering (pretty)

Modelled from the spec: the serde_json pretty formatter — two-space
indentation, one element or entry per line. -/

/-- Indentation for the pretty formatter. -/
def indentOf (depth : Nat) : List Char := List.replicate (2 * depth) ' '

mutual

/-- Pretty JSON text of a value at an indentation depth. -/
def renderPretty (depth : Nat) : Value → List Char
  | .vnull => ['n', 'u', 'l', 'l']
  | .vbool true => ['t', 'r', 'u', 'e']
  | .vbool false => ['f', 'a', 'l', 's', 'e']
  | .vint n => intChars n
  | .vstr s => quoteStr s
  | .varr .nil => ['[', ']']
  | .varr (.cons v t) =>
    '[' :: '\n' :: (indentOf (depth + 1) ++ renderPrettyElems (depth + 1) (.cons v t)
      ++ '\n' :: (indentOf depth ++ [']']))
  | .vobj .nil => ['\x7b', '\x7d']
  | .vobj (.cons k v t) =>
    '\x7b' :: '\n' :: (indentOf (depth + 1) ++ renderPrettyFields (depth + 1) (.cons k v t)
      ++ '\n' :: (indentOf depth ++ ['\x7d']))

def renderPrettyElems (depth : Nat) : Elems → List Char
  | .nil => []
  | .cons v .nil => renderPretty depth v
  | .cons v (.cons v2 t) =>
    renderPretty depth v ++ ',' :: '\n'
      :: (indentOf depth ++ renderPrettyElems depth (.cons v2 t))

def renderPrettyFields (depth : Nat) : Fields → List Char
  | .nil => []
  | .cons k v .nil => quoteStr k ++ ':' :: ' ' :: renderPretty depth v
  | .cons k v (.cons k2 v2 t) =>
    quoteStr k ++ ':' :: ' ' :: renderPretty depth v ++ ',' :: '\n'
      :: (indentOf depth ++ renderPrettyFields depth (.cons k2 v2 t))

end

/-- The text a serde_json serializer built over the given formatter writes
for one value. -/
def renderStyled : JsonStyle → Value → List Char
  | .compact, v => renderJson v
  | .pretty, v => renderPretty 0 v

/-! ## Output sinks

From src/main.rs `JsonOutput::transcode_from` (value text then `writeln`)
and, modelled from the spec, the serde_yaml per-document framing. -/

/-- What the compact JSON output writes for one document: the value's text
followed by exactly one newline. -/
def jsonOut (v : Value) : List Char := renderJson v ++ ['\n']

/-- Modelled from the spec: the YAML serializer's own per-document framing —
a `---` document marker, the value, a closing newline.  The value itself is
written in the JSON-compatible flow subset of YAML the spec points to. -/
def yamlOutDoc (v : Value) : List Char :=
  '-' :: '-' :: '-' :: ' ' :: (renderJson v ++ ['\n'])

/-- From src/main.rs `JsonOutput`: the writer plus the formatter chosen at
construction; `transcode_from` clones that formatter for each document. -/
structure JsonOutputS where
  style : JsonStyle

/-- From src/main.rs `JsonOutput::transcode_from`: serialize one value with
a clone of the stored formatter, then write one newline.  The first
component records which formatter the document was written with. -/
def JsonOutputS.transcode_from (o : JsonOutputS) (v : Value) : JsonStyle × List Char :=
  (o.style, renderStyled o.style v ++ ['\n'])

/-- From src/main.rs `jyt`, JSON-output arm: the output value (with its
formatter) is built once from the terminal check, then used for every
document of the run. -/
def jytJsonRun (isTerminal : Bool) (docs : List Value) : List (JsonStyle × List Char) :=
  let o : JsonOutputS := ⟨chooseJsonStyle isTerminal⟩
  docs.map o.transcode_from

/-! ## The JSON stream driver

From src/main.rs `transcode_all_input`, `Format::Json` arm: while `de.end()`
fails (non-whitespace data remains), transcode one value and loop.  The
result pairs the output emitted so far with the error that stopped the run,
if any; fuel only bounds the loop and is supplied above the input length. -/

def jsonStreamRun (emit : Value → List Char) : Nat → List Char → List Char × Option TranscodeErr
  | 0, _ => ([], some .malformedInput)
  | f + 1, cs =>
    if (skipWs cs).isEmpty then ([], none)
    else
      match parseJsonVal (cs.length + 1) cs with
      | none => ([], some .malformedInput)
      | some (v, rest) =>
        let (out, e) := jsonStreamRun emit f rest
        (emit v ++ out, e)

/-- The JSON arm of `transcode_all_input` at its canonical fuel. -/
def transcodeAllJson (emit : Value → List Char) (cs : List Char) :
    List Char × Option TranscodeErr :=
  jsonStreamRun emit (cs.length + 1) cs

/-! ## Lines, and the YAML document iterator -/

/-- Split on newline characters; the empty input is one empty line. -/
def splitLines : List Char → List (List Char)
  | [] => [[]]
  | c :: cs =>
    if c = '\n' then [] :: splitLines cs
    else
      match splitLines cs with
      | [] => [[c]]
      | l :: ls => (c :: l) :: ls

/-- Join lines back with newlines. -/
def joinLines : List (List Char) → List Char
  | [] => []
  | [l] => l
  | l :: ls => l ++ '\n' :: joinLines ls

/-- A YAML document separator line. -/
def isDocSep (l : List Char) : Bool := l = ['-', '-', '-']

/-- Drop the document marker the YAML serializer writes, when present. -/
def stripDocHeader : List Char → List Char
  | '-' :: '-' :: '-' :: ' ' :: r => r
  | '-' :: '-' :: '-' :: '\n' :: r => r
  | cs => cs

/-- Modelled from the spec: one YAML document read in the JSON-compatible
flow subset, after any leading document marker; trailing whitespace only. -/
def parseYamlDoc (cs : List Char) : Option Value :=
  let body := stripDocHeader cs
  match parseJsonVal (body.length + 1) body with
  | some (v, r) => if (skipWs r).isEmpty then some v else none
  | none => none

/-- Modelled from the spec: the YAML grammar's own multi-document iterator —
documents are separated by `---` lines, and an empty stream yields zero
documents. -/
def yamlDocsSplit (cs : List Char) : List (List Char) :=
  if cs.isEmpty then []
  else
    match ((splitLines cs).splitOnP isDocSep).map joinLines with
    | [] :: rest => rest
    | gs => gs

/-- From src/main.rs `transcode_all_input`, `Format::Yaml` arm: transcode
each yielded document in order; output written for earlier documents stays
written when a later document fails. -/
def yamlStreamGo (emit : Value → List Char) : List (List Char) → List Char × Option TranscodeErr
  | [] => ([], none)
  | d :: ds =>
    match parseYamlDoc d with
    | none => ([], some .malformedInput)
    | some v =>
      let (out, e) := yamlStreamGo emit ds
      (emit v ++ out, e)

/-- The YAML arm of `transcode_all_input`. -/
def yamlRun (emit : Value → List Char) (cs : List Char) : List Char × Option TranscodeErr :=
  yamlStreamGo emit (yamlDocsSplit cs)

/-! ## TOML input

Modelled from the spec: a single-document grammar over the whole buffer —
the top-level table as `key = scalar` lines (blank lines skipped); any line
that is not part of that single table, such as a trailing bare key, is
malformed input. -/

/-- A character of a bare TOML key. -/
def isKeyChar (c : Char) : Bool := c.isAlphanum || c = '_' || c = '-'

/-- Modelled from the spec: one TOML scalar — integer or boolean. -/
def readTomlScalar : List Char → Option (Value × List Char)
  | 't' :: 'r' :: 'u' :: 'e' :: r => some (.vbool true, r)
  | 'f' :: 'a' :: 'l' :: 's' :: 'e' :: r => some (.vbool false, r)
  | '-' :: r =>
    match readNat r with
    | none => none
    | some (n, r2) => some (.vint (-(n : Int)), r2)
  | c :: r =>
    if isDig c then
      match readNat (c :: r) with
      | none => none
      | some (n, r2) => some (.vint (n : Int), r2)
    else none
  | [] => none

/-- One line of the single top-level table: blank (`some none`), an
assignment (`some (some _)`), or malformed (`none`). -/
def parseTomlLine (l : List Char) : Option (Option (List Char × Value)) :=
  if l.all isWsCh then some none
  else
    let l1 := l.dropWhile (fun c => c = ' ')
    let k := l1.takeWhile isKeyChar
    let r1 := l1.dropWhile isKeyChar
    if k.isEmpty then none
    else
      match r1.dropWhile (fun c => c = ' ') with
      | '=' :: r2 =>
        match readTomlScalar (r2.dropWhile (fun c => c = ' ')) with
        | some (v, r4) => if r4.all (fun c => c = ' ') then some (some (k, v)) else none
        | none => none
      | _ => none

/-- Fold the lines of the single document into its table, in order. -/
def tomlLines : List (List Char) → Except TranscodeErr Fields
  | [] => .ok .nil
  | l :: ls =>
    match parseTomlLine l with
    | none => .error .malformedInput
    | some none => tomlLines ls
    | some (some (k, v)) =>
      match tomlLines ls with
      | .error e => .error e
      | .ok fs => .ok (.cons k v fs)

/-- Modelled from the spec: the whole input buffer parsed as exactly one
document. -/
def parseTomlDoc (cs : List Char) : Except TranscodeErr Value :=
  match tomlLines (splitLines cs) with
  | .error e => .error e
  | .ok fs => .ok (.vobj fs)

/-! ## UTF-8 validation (the `str::from_utf8` step of the TOML arm)

Modelled from the spec of UTF-8 as `str::from_utf8` enforces it: shortest
forms only, no surrogates, no code points beyond `U+10FFFF`. -/

/-- A UTF-8 continuation byte. -/
def contByte (b : Nat) : Bool := decide (128 ≤ b ∧ b ≤ 191)

/-- Decode a byte sequence as UTF-8, or fail on the first invalid sequence. -/
def utf8Decode : List Nat → Option (List Char)
  | [] => some []
  | b :: rest =>
    if b < 128 then
      match utf8Decode rest with
      | none => none
      | some cs => some (Char.ofNat b :: cs)
    else if b < 194 then none
    else if b ≤ 223 then
      match rest with
      | b2 :: r2 =>
        if contByte b2 then
          match utf8Decode r2 with
          | none => none
          | some cs => some (Char.ofNat ((b - 192) * 64 + (b2 - 128)) :: cs)
        else none
      | [] => none
    else if b ≤ 239 then
      match rest with
      | b2 :: b3 :: r3 =>
        if (if b = 224 then decide (160 ≤ b2 ∧ b2 ≤ 191)
            else if b = 237 then decide (128 ≤ b2 ∧ b2 ≤ 159)
            else contByte b2) && contByte b3 then
          match utf8Decode r3 with
          | none => none
          | some cs =>
            some (Char.ofNat (((b - 224) * 64 + (b2 - 128)) * 64 + (b3 - 128)) :: cs)
        else none
      | _ => none
    else if b ≤ 244 then
      match rest with
      | b2 :: b3 :: b4 :: r4 =>
        if (if b = 240 then decide (144 ≤ b2 ∧ b2 ≤ 191)
            else if b = 244 then decide (128 ≤ b2 ∧ b2 ≤ 143)
            else contByte b2) && contByte b3 && contByte b4 then
          match utf8Decode r4 with
          | none => none
          | some cs =>
            some (Char.ofNat ((((b - 240) * 64 + (b2 - 128)) * 64
              + (b3 - 128)) * 64 + (b4 - 128)) :: cs)
        else none
      | _ => none
    else none

/-- From src/main.rs `transcode_all_input`, `Format::Toml` arm, at the byte
level: `str::from_utf8` first — its failure aborts the run before the TOML
reader (here an explicit parameter `p`) is ever consulted — then the single
document is parsed and transcoded once. -/
def transcodeTomlBytes (p : List Char → Except TranscodeErr Value)
    (emit : Value → List Char) (input : List Nat) : List Char × Option TranscodeErr :=
  match utf8Decode input with
  | none => ([], some .invalidUtf8)
  | some cs =>
    match p cs with
    | .error e => ([], some e)
    | .ok v => (emit v, none)

/-! ## The driver dispatch and the run pipeline -/

/-- From src/main.rs `transcode_all_input`: dispatch on the input format
(the TOML arm over an already-decoded character buffer; its byte-level form
with the UTF-8 step is `transcodeTomlBytes`). -/
def transcode_all_input (emit : Value → List Char) (from_fmt : Format)
    (input : List Char) : List Char × Option TranscodeErr :=
  match from_fmt with
  | .Yaml => yamlRun emit input
  | .Json => transcodeAllJson emit input
  | .Toml =>
    match parseTomlDoc input with
    | .error e => ([], some e)
    | .ok v => (emit v, none)

/-- From src/main.rs `jyt`, the dispatch on `opt.to`: JSON with the style
the terminal check picked, YAML, and the unreachable panic arm (`none`)
that `Opt::parse_to` guards. -/
def jytCore (toF from_fmt : Format) (isTerminal : Bool) (input : List Char) :
    Option (List Char × Option TranscodeErr) :=
  match toF with
  | .Json =>
    some (transcode_all_input
      (fun v => renderStyled (chooseJsonStyle isTerminal) v ++ ['\n']) from_fmt input)
  | .Yaml => some (transcode_all_input yamlOutDoc from_fmt input)
  | .Toml => none

/-- The run pipeline: resolve the output format first; only a successful
resolution reaches the input (the reader thunk is only forced then). -/
def jytRun (toArg : Option String) (from_fmt : Format) (isTerminal : Bool)
    (readInput : Unit → List Char) :
    Except OptErr (Option (List Char × Option TranscodeErr)) :=
  match resolveTo toArg with
  | .error e => .error e
  | .ok toF => .ok (jytCore toF from_fmt isTerminal (readInput ()))

/-! ## Single-document transcoding (for the round-trip law) -/

/-- Read one whole document in the given source format. -/
def readDoc : Format → List Char → Option Value
  | .Json, cs =>
    match parseJsonVal (cs.length + 1) cs with
    | some (v, r) => if (skipWs r).isEmpty then some v else none
    | none => none
  | .Yaml, cs => parseYamlDoc cs
  | .Toml, cs => (parseTomlDoc cs).toOption

/-- Write one document in the given destination format; `none` for a
format that cannot be output. -/
def writeDoc : Format → Value → Option (List Char)
  | .Json, v => some (jsonOut v)
  | .Yaml, v => some (yamlOutDoc v)
  | .Toml, _ => none

/-- Transcode one serialized document between two formats: read it, drive
it through the structural copy, write it. -/
def transcodeDoc (src dst : Format) (cs : List Char) : Option (List Char) :=
  match readDoc src cs with
  | none => none
  | some v => writeDoc dst (transcodeValue v)

/-! ## Predicates used by the statements -/

/-- A remainder that cannot extend a rendered number: empty, or headed by a
non-digit (every JSON delimiter and whitespace qualifies). -/
def tailOkB : List Char → Bool
  | [] => true
  | c :: _ => !isDig c

/-- Only JSON whitespace. -/
def wsOnly (cs : List Char) : Bool := cs.all isWsCh

/-- A multi-value JSON input: each entry is the whitespace run written
before a value. -/
def chain : List (List Char × Value) → List Char
  | [] => []
  | (sep, v) :: rest => sep ++ renderJson v ++ chain rest

/-- The entries form a well-formed whitespace-separated value stream and the
input ends in whitespace only: separators are whitespace, values are in the
modelled universe, and nothing after a value could extend it. -/
def chainOk : List (List Char × Value) → List Char → Bool
  | [], trailing => wsOnly trailing
  | (sep, v) :: rest, trailing =>
    wsOnly sep && wfValue v && tailOkB (chain rest ++ trailing) && chainOk rest trailing

/-- A bare TOML key token. -/
def isKeyTok (k : List Char) : Bool := !k.isEmpty && k.all isKeyChar

/-- Parse every yielded YAML document. -/
def parseDocs : List (List Char) → Option (List Value)
  | [] => some []
  | d :: ds =>
    match parseYamlDoc d with
    | none => none
    | some v =>
      match parseDocs ds with
      | none => none
      | some vs => some (v :: vs)

/-! # Theorems -/

/-! ## Characters and whitespace -/

theorem isDig_char_facts (c : Char) (h : isDig c = true) :
    isWsCh c = false ∧ c ≠ 'n' ∧ c ≠ 't' ∧ c ≠ 'f' ∧ c ≠ '"' ∧ c ≠ '[' ∧
      c ≠ '\x7b' ∧ c ≠ '-' ∧ c ≠ ',' ∧ c ≠ ']' ∧ c ≠ '\x7d' ∧ c ≠ ':' := by
  refine ⟨?_, ?_, ?_, ?_, ?_, ?_, ?_, ?_, ?_, ?_, ?_, ?_⟩
  · by_cases hw : isWsCh c = true
    · exfalso
      simp only [isWsCh, Bool.or_eq_true, decide_eq_true_eq] at hw
      rcases hw with ((h1 | h1) | h1) | h1 <;> subst h1 <;> exact absurd h (by decide)
    · simpa using hw
  all_goals exact fun h1 => absurd (h1 ▸ h) (by decide)

theorem digitCh_spec (k : Nat) (h : k < 10) :
    isDig (digitCh k) = true ∧ digVal (digitCh k) = k := by
  interval_cases k <;> exact ⟨by decide, by decide⟩

theorem skipWs_not_ws (c : Char) (cs : List Char) (h : isWsCh c = false) :
    skipWs (c :: cs) = c :: cs := by
  simp [skipWs, List.dropWhile_cons, h]

theorem skipWs_ws_append (ws x : List Char) (h : wsOnly ws = true) :
    skipWs (ws ++ x) = skipWs x := by
  induction ws with
  | nil => rfl
  | cons c t ih =>
    simp only [wsOnly, List.all_cons, Bool.and_eq_true] at h
    simp only [List.cons_append, skipWs, List.dropWhile_cons, h.1, if_true]
    exact ih (by simpa [wsOnly] using h.2)

theorem wsOnly_skipWs_nil (ws : List Char) (h : wsOnly ws = true) :
    skipWs ws = [] := by
  have := skipWs_ws_append ws [] h
  simpa using this

theorem skipWs_skipWs (cs : List Char) : skipWs (skipWs cs) = skipWs cs := by
  induction cs with
  | nil => rfl
  | cons c t ih =>
    by_cases h : isWsCh c = true
    · simp [skipWs, List.dropWhile_cons, h] at ih ⊢
      exact ih
    · rw [skipWs_not_ws c t (by simpa using h), skipWs_not_ws c t (by simpa using h)]

/-! ## Decimal digits -/

theorem natCharsGo_fuel (n : Nat) : ∀ (f g : Nat), n < f → n < g →
    natCharsGo f n = natCharsGo g n := by
  induction n using Nat.strong_induction_on with
  | _ n ih =>
    intro f g hf hg
    rcases f with _ | f2
    · omega
    · rcases g with _ | g2
      · omega
      · by_cases h : n < 10
        · simp [natCharsGo, h]
        · have hlt : n / 10 < n := Nat.div_lt_self (by omega) (by omega)
          simp only [natCharsGo, if_neg h]
          rw [ih (n / 10) hlt f2 g2 (by omega) (by omega)]

theorem natChars_unfold (n : Nat) :
    natChars n = if n < 10 then [digitCh n] else natChars (n / 10) ++ [digitCh (n % 10)] := by
  by_cases h : n < 10
  · simp [natChars, natCharsGo, h]
  · have hlt : n / 10 < n := Nat.div_lt_self (by omega) (by omega)
    simp only [natChars]
    rw [natCharsGo.eq_def]
    simp only [if_neg h]
    rw [natCharsGo_fuel (n / 10) n (n / 10 + 1) hlt (by omega)]

theorem natChars_ne_nil (n : Nat) : natChars n ≠ [] := by
  rw [natChars_unfold]
  split <;> simp

theorem natChars_all_digits (n : Nat) : ∀ c ∈ natChars n, isDig c = true := by
  induction n using Nat.strong_induction_on with
  | _ n ih =>
    rw [natChars_unfold]
    by_cases h : n < 10
    · simp only [if_pos h, List.mem_singleton]
      rintro c rfl
      exact (digitCh_spec n h).1
    · simp only [if_neg h, List.mem_append, List.mem_singleton]
      rintro c (hc | rfl)
      · exact ih (n / 10) (Nat.div_lt_self (by omega) (by omega)) c hc
      · exact (digitCh_spec (n % 10) (Nat.mod_lt _ (by omega))).1

theorem digitsVal_append (xs : List Char) (c : Char) :
    ∀ acc, digitsVal (xs ++ [c]) acc = digitsVal xs acc * 10 + digVal c := by
  induction xs with
  | nil => intro acc; simp [digitsVal]
  | cons x t ih => intro acc; simp [digitsVal, ih]

theorem digitsVal_natChars (n : Nat) :
    ∀ acc, digitsVal (natChars n) acc = acc * 10 ^ (natChars n).length + n := by
  induction n using Nat.strong_induction_on with
  | _ n ih =>
    intro acc
    rw [natChars_unfold]
    by_cases h : n < 10
    · simp only [if_pos h, digitsVal, List.length_singleton, pow_one]
      rw [(digitCh_spec n h).2]
    · simp only [if_neg h]
      rw [digitsVal_append, ih (n / 10) (Nat.div_lt_self (by omega) (by omega)) acc,
        (digitCh_spec (n % 10) (Nat.mod_lt _ (by omega))).2,
        List.length_append, List.length_singleton, pow_succ]
      have hdm := Nat.div_add_mod n 10
      ring_nf
      omega

theorem grabDigits_stop (cs : List Char) (h : tailOkB cs = true) : grabDigits cs = ([], cs) := by
  cases cs with
  | nil => rfl
  | cons c t =>
    have hc : isDig c = false := by simpa [tailOkB] using h
    simp [grabDigits, hc]

theorem grabDigits_run (ds rest : List Char) (hds : ∀ c ∈ ds, isDig c = true)
    (hr : tailOkB rest = true) : grabDigits (ds ++ rest) = (ds, rest) := by
  induction ds with
  | nil => simpa using grabDigits_stop rest hr
  | cons c t ih =>
    have hc := hds c (by simp)
    simp [grabDigits, hc, ih (fun x hx => hds x (by simp [hx]))]

theorem readNat_natChars (n : Nat) (rest : List Char) (hr : tailOkB rest = true) :
    readNat (natChars n ++ rest) = some (n, rest) := by
  have hg := grabDigits_run (natChars n) rest (natChars_all_digits n) hr
  have hv : digitsVal (natChars n) 0 = n := by simpa using digitsVal_natChars n 0
  rcases hh : natChars n with _ | ⟨c, t⟩
  · exact absurd hh (natChars_ne_nil n)
  · rw [hh] at hg hv
    rw [List.cons_append] at hg
    simp only [readNat, List.cons_append, hg]
    simp [hv]

theorem natChars_head (n : Nat) : ∃ c t, natChars n = c :: t ∧ isDig c = true := by
  rcases hh : natChars n with _ | ⟨c, t⟩
  · exact absurd hh (natChars_ne_nil n)
  · refine ⟨c, t, rfl, natChars_all_digits n c ?_⟩
    rw [hh]
    exact List.mem_cons_self _ _

/-! ## Strings -/

theorem readStrBody_escBody (s rest : List Char) (h : wfStr s = true) :
    readStrBody (escBody s ++ '"' :: rest) = some (s, rest) := by
  induction s with
  | nil =>
    simp only [escBody, List.nil_append]
    rw [readStrBody.eq_def]
    simp
  | cons c t ih =>
    have hc : plainChar c = true ∧ wfStr t = true := by
      simpa [wfStr] using h
    have iht := ih hc.2
    by_cases h1 : c = '"'
    · subst h1
      simp only [escBody, escCh, if_pos rfl, List.cons_append, List.append_assoc]
      rw [readStrBody.eq_def]
      simp [unescCh, iht]
    · by_cases h2 : c = '\\'
      · subst h2
        simp only [escBody, escCh, if_neg (show ('\\' = '"') → False by decide), if_pos rfl,
          List.cons_append, List.append_assoc]
        rw [readStrBody.eq_def]
        simp [unescCh, iht]
      · have h3 : ¬ c.toNat < 32 := by
          have := hc.1
          simp only [plainChar, decide_eq_true_eq] at this
          omega
        simp only [escBody, escCh, h1, h2, if_false, List.cons_append, List.nil_append,
          if_neg h1, if_neg h2]
        rw [readStrBody.eq_def]
        simp [h1, h2, h3, iht]

/-! ## Heads and sizes of rendered values -/

theorem renderJson_head (v : Value) :
    ∃ c t, renderJson v = c :: t ∧ isWsCh c = false ∧ c ≠ ']' ∧ c ≠ '\x7d' := by
  cases v with
  | vint n =>
    by_cases hn : n < 0
    · refine ⟨'-', natChars n.natAbs, ?_, by decide⟩
      simp [renderJson, intChars, hn]
    · obtain ⟨c, t, hct, hc⟩ := natChars_head n.toNat
      obtain ⟨hws, _, _, _, _, _, _, _, _, hbr, hbc, _⟩ := isDig_char_facts c hc
      refine ⟨c, t, ?_, hws, hbr, hbc⟩
      simp [renderJson, intChars, hn, hct]
  | vbool b =>
    rcases b with _ | _
    · exact ⟨'f', _, rfl, by decide⟩
    · exact ⟨'t', _, rfl, by decide⟩
  | vnull => exact ⟨'n', _, rfl, by decide⟩
  | vstr s => exact ⟨'"', _, rfl, by decide⟩
  | varr items => exact ⟨'[', _, rfl, by decide⟩
  | vobj entries => exact ⟨'\x7b', _, rfl, by decide⟩

theorem vsize_pos (v : Value) : 1 ≤ vsize v := by
  cases v <;> simp [vsize]

theorem esize_pos (es : Elems) : 1 ≤ esize es := by
  cases es with
  | nil => simp [esize]
  | cons v t =>
    have := vsize_pos v
    simp [esize]
    omega

theorem fsize_pos (fs : Fields) : 1 ≤ fsize fs := by
  cases fs with
  | nil => simp [fsize]
  | cons k v t =>
    have := vsize_pos v
    simp [fsize]
    omega

mutual

theorem vsize_le_render : ∀ v : Value, vsize v ≤ (renderJson v).length
  | .vnull => by simp [vsize, renderJson]
  | .vbool b => by cases b <;> simp [vsize, renderJson]
  | .vint n => by
    simp only [vsize, renderJson]
    by_cases hn : n < 0
    · simp only [intChars, if_pos hn, List.length_cons]
      omega
    · simp only [intChars, if_neg hn]
      have h1 : 0 < (natChars n.toNat).length :=
        List.length_pos.mpr (natChars_ne_nil n.toNat)
      omega
  | .vstr s => by simp [vsize, renderJson, quoteStr]
  | .varr items => by
    have h := esize_le_renderElems items
    simp only [vsize, renderJson, List.length_cons, List.length_append]
    simp at h ⊢
    omega
  | .vobj entries => by
    have h := fsize_le_renderFields entries
    simp only [vsize, renderJson, List.length_cons, List.length_append]
    simp at h ⊢
    omega

theorem esize_le_renderElems : ∀ es : Elems, esize es ≤ (renderElems es).length + 1
  | .nil => by simp [esize, renderElems]
  | .cons v t => by
    have h1 := vsize_le_render v
    have h2 := esize_le_renderElemsTail t
    simp only [esize, renderElems, List.length_append]
    omega

theorem esize_le_renderElemsTail : ∀ es : Elems, esize es ≤ (renderElemsTail es).length + 1
  | .nil => by simp [esize, renderElemsTail]
  | .cons v t => by
    have h1 := vsize_le_render v
    have h2 := esize_le_renderElemsTail t
    simp only [esize, renderElemsTail, List.length_cons, List.length_append]
    omega

theorem fsize_le_renderFields : ∀ fs : Fields, fsize fs ≤ (renderFields fs).length + 1
  | .nil => by simp [fsize, renderFields]
  | .cons k v t => by
    have h1 := vsize_le_render v
    have h2 := fsize_le_renderFieldsTail t
    simp only [fsize, renderFields, List.length_append, List.length_cons]
    omega

theorem fsize_le_renderFieldsTail : ∀ fs : Fields, fsize fs ≤ (renderFieldsTail fs).length + 1
  | .nil => by simp [fsize, renderFieldsTail]
  | .cons k v t => by
    have h1 := vsize_le_render v
    have h2 := fsize_le_renderFieldsTail t
    simp only [fsize, renderFieldsTail, List.length_cons, List.length_append]
    omega

end

theorem tailOkB_cons (c : Char) (x : List Char) (h : isDig c = false) :
    tailOkB (c :: x) = true := by
  simp [tailOkB, h]

theorem tailOk_elems (t : Elems) (rest : List Char) :
    tailOkB (renderElemsTail t ++ ']' :: rest) = true := by
  cases t with
  | nil => exact tailOkB_cons ']' rest (by decide)
  | cons v t2 =>
    simp only [renderElemsTail, List.cons_append]
    exact tailOkB_cons ',' _ (by decide)

theorem tailOk_fields (t : Fields) (rest : List Char) :
    tailOkB (renderFieldsTail t ++ '\x7d' :: rest) = true := by
  cases t with
  | nil => exact tailOkB_cons '\x7d' rest (by decide)
  | cons k v t2 =>
    simp only [renderFieldsTail, List.cons_append]
    exact tailOkB_cons ',' _ (by decide)

/-! ## The JSON codec round trip

Parsing a rendered value recovers it exactly, for every document in the
modelled universe, whenever the remainder cannot extend a number and the
fuel exceeds the value's structural size. -/

mutual

theorem rtVal : ∀ (f : Nat) (v : Value) (rest : List Char),
    wfValue v = true → vsize v < f → tailOkB rest = true →
    parseJsonVal f (renderJson v ++ rest) = some (v, rest)
  | 0, v, _, _, hf, _ => absurd hf (Nat.not_lt_zero _)
  | f + 1, .vnull, rest, _, _, _ => by
    rw [parseJsonVal.eq_def]
    simp [renderJson, skipWs, List.dropWhile_cons, isWsCh, expectLit]
  | f + 1, .vbool true, rest, _, _, _ => by
    rw [parseJsonVal.eq_def]
    simp [renderJson, skipWs, List.dropWhile_cons, isWsCh, expectLit]
  | f + 1, .vbool false, rest, _, _, _ => by
    rw [parseJsonVal.eq_def]
    simp [renderJson, skipWs, List.dropWhile_cons, isWsCh, expectLit]
  | f + 1, .vint n, rest, _, _, hr => by
    by_cases hn : n < 0
    · have harg : renderJson (Value.vint n) ++ rest = '-' :: (natChars n.natAbs ++ rest) := by
        simp [renderJson, intChars, hn]
      have hsw : skipWs ('-' :: (natChars n.natAbs ++ rest))
          = '-' :: (natChars n.natAbs ++ rest) := skipWs_not_ws _ _ (by decide)
      rw [harg, parseJsonVal.eq_def]
      simp [hsw, readNat_natChars n.natAbs rest hr]
      rw [abs_of_neg hn, neg_neg]
    · obtain ⟨c, t, hct, hc⟩ := natChars_head n.toNat
      obtain ⟨hws, hn', ht', hf', hq', hbk', hbc', hm', _, _, _, _⟩ := isDig_char_facts c hc
      have harg : renderJson (Value.vint n) ++ rest = c :: (t ++ rest) := by
        simp [renderJson, intChars, hn, hct]
      have hsw := skipWs_not_ws c (t ++ rest) hws
      have hrn : readNat (c :: (t ++ rest)) = some (n.toNat, rest) := by
        have h2 := readNat_natChars n.toNat rest hr
        rw [hct] at h2
        simpa using h2
      have h0 : (0 : Int) ≤ n := by omega
      rw [harg, parseJsonVal.eq_def]
      simp [hsw, hn', ht', hf', hq', hbk', hbc', hm', hc, hrn, Int.toNat_of_nonneg h0]
  | f + 1, .vstr s, rest, hwf, _, _ => by
    have harg : renderJson (Value.vstr s) ++ rest = '"' :: (escBody s ++ '"' :: rest) := by
      simp [renderJson, quoteStr]
    have hsw : skipWs ('"' :: (escBody s ++ '"' :: rest)) = '"' :: (escBody s ++ '"' :: rest) :=
      skipWs_not_ws _ _ (by decide)
    rw [harg, parseJsonVal.eq_def]
    simp [hsw, readStrBody_escBody s rest (by simpa [wfValue] using hwf)]
  | f + 1, .varr .nil, rest, _, _, _ => by
    have harg : renderJson (Value.varr .nil) ++ rest = '[' :: (']' :: rest) := by
      simp [renderJson, renderElems]
    rw [harg, parseJsonVal.eq_def]
    simp [skipWs, List.dropWhile_cons, isWsCh]
  | f + 1, .varr (.cons v t), rest, hwf, hfu, hr => by
    have hw : wfValue v = true ∧ wfElems t = true := by
      simpa [wfValue, wfElems] using hwf
    have hfu2 : vsize v + esize t < f := by
      have := hfu
      simp only [vsize, esize] at this
      omega
    have harr := rtElems f v t rest hw.1 hw.2 hfu2 hr
    obtain ⟨c2, t2, hct2, hws2, hbr2, hbc2⟩ := renderJson_head v
    have harg : renderJson (Value.varr (.cons v t)) ++ rest
        = '[' :: (renderJson v ++ (renderElemsTail t ++ ']' :: rest)) := by
      simp [renderJson, renderElems]
    have hX : renderJson v ++ (renderElemsTail t ++ ']' :: rest)
        = c2 :: (t2 ++ (renderElemsTail t ++ ']' :: rest)) := by
      simp [hct2]
    rw [hX] at harr
    rw [harg, hX, parseJsonVal.eq_def]
    have hsw1 := skipWs_not_ws '[' (c2 :: (t2 ++ (renderElemsTail t ++ ']' :: rest))) (by decide)
    have hsw2 := skipWs_not_ws c2 (t2 ++ (renderElemsTail t ++ ']' :: rest)) hws2
    simp [hsw1, hsw2, hbr2, harr]
  | f + 1, .vobj .nil, rest, _, _, _ => by
    have harg : renderJson (Value.vobj .nil) ++ rest = '\x7b' :: ('\x7d' :: rest) := by
      simp [renderJson, renderFields]
    rw [harg, parseJsonVal.eq_def]
    simp [skipWs, List.dropWhile_cons, isWsCh]
  | f + 1, .vobj (.cons k v t), rest, hwf, hfu, hr => by
    have hw : (wfStr k = true ∧ wfValue v = true) ∧ wfFields t = true := by
      simpa [wfValue, wfFields] using hwf
    have hfu2 : vsize v + fsize t < f := by
      have := hfu
      simp only [vsize, fsize] at this
      omega
    have hobj := rtFields f k v t rest hw.1.1 hw.1.2 hw.2 hfu2 hr
    have harg : renderJson (Value.vobj (.cons k v t)) ++ rest
        = '\x7b' :: (quoteStr k ++ (':' :: (renderJson v ++ (renderFieldsTail t
          ++ '\x7d' :: rest)))) := by
      simp [renderJson, renderFields]
    have hQ : quoteStr k ++ (':' :: (renderJson v ++ (renderFieldsTail t ++ '\x7d' :: rest)))
        = '"' :: (escBody k ++ ('"' :: (':' :: (renderJson v ++ (renderFieldsTail t
          ++ '\x7d' :: rest))))) := by
      simp [quoteStr]
    rw [hQ] at hobj
    rw [harg, hQ, parseJsonVal.eq_def]
    have hsw1 := skipWs_not_ws '\x7b'
      ('"' :: (escBody k ++ ('"' :: (':' :: (renderJson v
        ++ (renderFieldsTail t ++ '\x7d' :: rest)))))) (by decide)
    have hsw2 := skipWs_not_ws '"'
      (escBody k ++ ('"' :: (':' :: (renderJson v
        ++ (renderFieldsTail t ++ '\x7d' :: rest))))) (by decide)
    simp [hsw1, hsw2, hobj]

theorem rtElems : ∀ (f : Nat) (v : Value) (t : Elems) (rest : List Char),
    wfValue v = true → wfElems t = true → vsize v + esize t < f → tailOkB rest = true →
    parseArrItems f (renderJson v ++ (renderElemsTail t ++ ']' :: rest)) = some (.cons v t, rest)
  | 0, v, t, _, _, _, hf, _ => absurd hf (Nat.not_lt_zero _)
  | f + 1, v, .nil, rest, hwv, _, hfu, hr => by
    have hfv : vsize v < f := by
      have := hfu
      simp only [esize] at this
      omega
    have hval := rtVal f v (renderElemsTail .nil ++ ']' :: rest) hwv hfv (tailOk_elems .nil rest)
    simp only [renderElemsTail, List.nil_append] at hval ⊢
    rw [parseArrItems.eq_def]
    have hsw := skipWs_not_ws ']' rest (by decide)
    simp [hval, hsw]
  | f + 1, v, .cons v2 t2, rest, hwv, hwt, hfu, hr => by
    have hw2 : wfValue v2 = true ∧ wfElems t2 = true := by
      simpa [wfElems] using hwt
    have h1 := vsize_pos v
    have h2 := vsize_pos v2
    have h3 := esize_pos t2
    have hfv : vsize v < f := by
      have := hfu
      simp only [esize] at this
      omega
    have hfv2 : vsize v2 + esize t2 < f := by
      have := hfu
      simp only [esize] at this
      omega
    have hval := rtVal f v (renderElemsTail (.cons v2 t2) ++ ']' :: rest) hwv hfv
      (tailOk_elems (.cons v2 t2) rest)
    have htail := rtElems f v2 t2 rest hw2.1 hw2.2 hfv2 hr
    rw [parseArrItems.eq_def]
    simp only [hval]
    have harg : renderElemsTail (Elems.cons v2 t2) ++ ']' :: rest
        = ',' :: (renderJson v2 ++ (renderElemsTail t2 ++ ']' :: rest)) := by
      simp [renderElemsTail]
    rw [harg]
    have hsw := skipWs_not_ws ',' (renderJson v2 ++ (renderElemsTail t2 ++ ']' :: rest))
      (by decide)
    simp [hsw, htail]

theorem rtFields : ∀ (f : Nat) (k : List Char) (v : Value) (t : Fields) (rest : List Char),
    wfStr k = true → wfValue v = true → wfFields t = true → vsize v + fsize t < f →
    tailOkB rest = true →
    parseObjItems f (quoteStr k ++ (':' :: (renderJson v ++ (renderFieldsTail t
      ++ '\x7d' :: rest)))) = some (.cons k v t, rest)
  | 0, k, v, t, _, _, _, _, hf, _ => absurd hf (Nat.not_lt_zero _)
  | f + 1, k, v, .nil, rest, hwk, hwv, _, hfu, hr => by
    have hfv : vsize v < f := by
      have := hfu
      simp only [fsize] at this
      omega
    have hval := rtVal f v (renderFieldsTail .nil ++ '\x7d' :: rest) hwv hfv
      (tailOk_fields .nil rest)
    simp only [renderFieldsTail, List.nil_append] at hval ⊢
    rw [parseObjItems.eq_def]
    have hQ : quoteStr k ++ (':' :: (renderJson v ++ '\x7d' :: rest))
        = '"' :: (escBody k ++ ('"' :: (':' :: (renderJson v ++ '\x7d' :: rest)))) := by
      simp [quoteStr]
    rw [hQ]
    have hsw1 := skipWs_not_ws '"'
      (escBody k ++ ('"' :: (':' :: (renderJson v ++ '\x7d' :: rest)))) (by decide)
    have hrs := readStrBody_escBody k (':' :: (renderJson v ++ '\x7d' :: rest)) hwk
    have hsw2 := skipWs_not_ws ':' (renderJson v ++ '\x7d' :: rest) (by decide)
    have hsw3 := skipWs_not_ws '\x7d' rest (by decide)
    simp [hsw1, hrs, hsw2, hval, hsw3]
  | f + 1, k, v, .cons k2 v2 t2, rest, hwk, hwv, hwt, hfu, hr => by
    have hw2 : (wfStr k2 = true ∧ wfValue v2 = true) ∧ wfFields t2 = true := by
      simpa [wfFields] using hwt
    have h1 := vsize_pos v
    have h2 := vsize_pos v2
    have h3 := fsize_pos t2
    have hfv : vsize v < f := by
      have := hfu
      simp only [fsize] at this
      omega
    have hfv2 : vsize v2 + fsize t2 < f := by
      have := hfu
      simp only [fsize] at this
      omega
    have hval := rtVal f v (renderFieldsTail (.cons k2 v2 t2) ++ '\x7d' :: rest) hwv hfv
      (tailOk_fields (.cons k2 v2 t2) rest)
    have htail := rtFields f k2 v2 t2 rest hw2.1.1 hw2.1.2 hw2.2 hfv2 hr
    have harg : renderFieldsTail (Fields.cons k2 v2 t2) ++ '\x7d' :: rest
        = ',' :: (quoteStr k2 ++ (':' :: (renderJson v2 ++ (renderFieldsTail t2
          ++ '\x7d' :: rest)))) := by
      simp [renderFieldsTail]
    rw [harg] at hval
    rw [harg, parseObjItems.eq_def]
    have hQ : quoteStr k ++ (':' :: (renderJson v ++ (',' :: (quoteStr k2
        ++ (':' :: (renderJson v2 ++ (renderFieldsTail t2 ++ '\x7d' :: rest)))))))
        = '"' :: (escBody k ++ ('"' :: (':' :: (renderJson v ++ (',' :: (quoteStr k2
          ++ (':' :: (renderJson v2 ++ (renderFieldsTail t2 ++ '\x7d' :: rest))))))))) := by
      simp [quoteStr]
    rw [hQ]
    have hsw1 := skipWs_not_ws '"'
      (escBody k ++ ('"' :: (':' :: (renderJson v ++ (',' :: (quoteStr k2
        ++ (':' :: (renderJson v2 ++ (renderFieldsTail t2 ++ '\x7d' :: rest))))))))) (by decide)
    have hrs := readStrBody_escBody k
      (':' :: (renderJson v ++ (',' :: (quoteStr k2
        ++ (':' :: (renderJson v2 ++ (renderFieldsTail t2 ++ '\x7d' :: rest))))))) hwk
    have hsw2 := skipWs_not_ws ':'
      (renderJson v ++ (',' :: (quoteStr k2
        ++ (':' :: (renderJson v2 ++ (renderFieldsTail t2 ++ '\x7d' :: rest)))))) (by decide)
    have hsw3 := skipWs_not_ws ','
      (quoteStr k2 ++ (':' :: (renderJson v2 ++ (renderFieldsTail t2 ++ '\x7d' :: rest))))
      (by decide)
    simp [hsw1, hrs, hsw2, hval, hsw3, htail]

end

/-! ## The structural copy is the identity on documents -/

mutual

theorem transcodeValue_id : ∀ v : Value, transcodeValue v = v
  | .vnull => rfl
  | .vbool _ => rfl
  | .vint _ => rfl
  | .vstr _ => rfl
  | .varr items => by simp [transcodeValue, transcodeElems_id items]
  | .vobj entries => by simp [transcodeValue, transcodeFields_id entries]

theorem transcodeElems_id : ∀ es : Elems, transcodeElems es = es
  | .nil => rfl
  | .cons v t => by simp [transcodeElems, transcodeValue_id v, transcodeElems_id t]

theorem transcodeFields_id : ∀ fs : Fields, transcodeFields fs = fs
  | .nil => rfl
  | .cons k v t => by simp [transcodeFields, transcodeValue_id v, transcodeFields_id t]

end

/-! ## Whole-document reads of rendered output -/

theorem readDoc_json_out (v : Value) (h : wfValue v = true) :
    readDoc .Json (jsonOut v) = some v := by
  have hsz := vsize_le_render v
  have hlen : vsize v < (jsonOut v).length + 1 := by
    simp only [jsonOut, List.length_append]
    omega
  have hp := rtVal ((jsonOut v).length + 1) v ['\n'] h hlen (by decide)
  simp only [jsonOut] at hp
  simp only [readDoc, jsonOut, hp]
  simp [skipWs, show isWsCh '\n' = true from by decide]

theorem parseYamlDoc_out (v : Value) (h : wfValue v = true) :
    parseYamlDoc (yamlOutDoc v) = some v := by
  have hb : stripDocHeader (yamlOutDoc v) = renderJson v ++ ['\n'] := rfl
  have hsz := vsize_le_render v
  have hlen : vsize v < (renderJson v ++ ['\n']).length + 1 := by
    simp only [List.length_append]
    omega
  have hp := rtVal ((renderJson v ++ ['\n']).length + 1) v ['\n'] h hlen (by decide)
  simp only [parseYamlDoc, hb, hp]
  simp [skipWs, show isWsCh '\n' = true from by decide]

theorem readDoc_yaml_out (v : Value) (h : wfValue v = true) :
    readDoc .Yaml (yamlOutDoc v) = some v := parseYamlDoc_out v h

/-! ## The JSON stream driver on a well-formed value stream -/

theorem parseJsonVal_ws (g : Nat) (ws x : List Char) (h : wsOnly ws = true) :
    parseJsonVal (g + 1) (ws ++ x) = parseJsonVal (g + 1) x := by
  simp only [parseJsonVal.eq_def]
  rw [skipWs_ws_append ws x h]

theorem jsonStreamRun_chain (emit : Value → List Char) :
    ∀ (ps : List (List Char × Value)) (fuel : Nat) (trailing : List Char),
    chainOk ps trailing = true → ps.length < fuel →
    jsonStreamRun emit fuel (chain ps ++ trailing) = ((ps.map (fun p => emit p.2)).flatten, none)
  | [], fuel, trailing, hok, hfu => by
    have hw : wsOnly trailing = true := by simpa [chainOk] using hok
    rcases fuel with _ | f
    · omega
    · rw [jsonStreamRun.eq_def]
      simp [chain, wsOnly_skipWs_nil trailing hw]
  | (sep, v) :: rest, fuel, trailing, hok, hfu => by
    have hok2 : ((wsOnly sep = true ∧ wfValue v = true) ∧
        tailOkB (chain rest ++ trailing) = true) ∧ chainOk rest trailing = true := by
      simpa [chainOk] using hok
    obtain ⟨⟨⟨hsep, hwv⟩, htl⟩, hrest⟩ := hok2
    rcases fuel with _ | f
    · omega
    · have harg : chain ((sep, v) :: rest) ++ trailing
          = sep ++ (renderJson v ++ (chain rest ++ trailing)) := by
        simp [chain]
      obtain ⟨c, t, hct, hws, _, _⟩ := renderJson_head v
      have hskip : skipWs (chain ((sep, v) :: rest) ++ trailing)
          = renderJson v ++ (chain rest ++ trailing) := by
        rw [harg, skipWs_ws_append _ _ hsep, hct, List.cons_append,
          skipWs_not_ws c _ (by simpa using hws), ← List.cons_append, ← hct]
      have hemp : (skipWs (chain ((sep, v) :: rest) ++ trailing)).isEmpty = false := by
        rw [hskip, hct]
        simp
      have hsz := vsize_le_render v
      have hlen : vsize v < (sep ++ (renderJson v ++ (chain rest ++ trailing))).length + 1 := by
        simp only [List.length_append]
        omega
      have hparse : parseJsonVal ((chain ((sep, v) :: rest) ++ trailing).length + 1)
          (chain ((sep, v) :: rest) ++ trailing) = some (v, chain rest ++ trailing) := by
        rw [harg, parseJsonVal_ws _ sep _ hsep]
        exact rtVal _ v (chain rest ++ trailing) hwv hlen htl
      have ih := jsonStreamRun_chain emit rest f trailing hrest (by simpa using hfu)
      rw [jsonStreamRun.eq_def]
      simp only [hemp, Bool.false_eq_true, if_false, hparse, ih]
      simp

theorem jsonStreamRun_fail (emit : Value → List Char) (f : Nat) (cs : List Char)
    (h1 : (skipWs cs).isEmpty = false) (h2 : parseJsonVal (cs.length + 1) cs = none) :
    jsonStreamRun emit (f + 1) cs = ([], some .malformedInput) := by
  rw [jsonStreamRun.eq_def]
  simp [h1, h2]

/-! ## The YAML stream driver -/

theorem yamlStreamGo_ok (emit : Value → List Char) :
    ∀ (docs : List (List Char)) (vs : List Value), parseDocs docs = some vs →
    yamlStreamGo emit docs = ((vs.map emit).flatten, none)
  | [], vs, h => by
    have hv : vs = [] := by
      have := h
      simp [parseDocs] at this
      exact this
    subst hv
    simp [yamlStreamGo]
  | d :: ds, vs, h => by
    rcases hv : parseYamlDoc d with _ | v
    · simp [parseDocs, hv] at h
    · rcases hvs : parseDocs ds with _ | vs2
      · simp [parseDocs, hv, hvs] at h
      · have hcons : vs = v :: vs2 := by
          have h2 := h
          simp [parseDocs, hv, hvs] at h2
          exact h2.symm
        subst hcons
        have ih := yamlStreamGo_ok emit ds vs2 hvs
        simp [yamlStreamGo, hv, ih]

theorem yamlStreamGo_err (emit : Value → List Char) :
    ∀ (pre : List (List Char)) (d : List Char) (post : List (List Char)) (vs : List Value),
    parseDocs pre = some vs → parseYamlDoc d = none →
    yamlStreamGo emit (pre ++ d :: post) = ((vs.map emit).flatten, some .malformedInput)
  | [], d, post, vs, hpre, hd => by
    have hv : vs = [] := by
      have := hpre
      simp [parseDocs] at this
      exact this
    subst hv
    simp [yamlStreamGo, hd]
  | p :: ps, d, post, vs, hpre, hd => by
    rcases hv : parseYamlDoc p with _ | v
    · simp [parseDocs, hv] at hpre
    · rcases hvs : parseDocs ps with _ | vs2
      · simp [parseDocs, hv, hvs] at hpre
      · have hcons : vs = v :: vs2 := by
          have h2 := hpre
          simp [parseDocs, hv, hvs] at h2
          exact h2.symm
        subst hcons
        have ih := yamlStreamGo_err emit ps d post vs2 hvs hd
        simp [yamlStreamGo, hv, ih]

/-! ## Lines -/

theorem splitLines_single (l : List Char) (h : '\n' ∉ l) : splitLines l = [l] := by
  induction l with
  | nil => rfl
  | cons c t ih =>
    have hc : ¬ c = '\n' := by
      intro hcc
      exact h (by simp [hcc])
    have ht := ih (by intro hm; exact h (by simp [hm]))
    simp [splitLines, hc, ht]

theorem splitLines_no_nl (l cs : List Char) (h : '\n' ∉ l) :
    splitLines (l ++ '\n' :: cs) = l :: splitLines cs := by
  induction l with
  | nil => simp [splitLines]
  | cons c t ih =>
    have hc : ¬ c = '\n' := by
      intro hcc
      exact h (by simp [hcc])
    have ht := ih (by intro hm; exact h (by simp [hm]))
    simp [splitLines, hc, ht]

theorem splitLines_joinLines : ∀ (ls : List (List Char)), ls ≠ [] →
    (∀ l ∈ ls, '\n' ∉ l) → splitLines (joinLines ls) = ls
  | [], hne, _ => absurd rfl hne
  | [l], _, h => by
    simp only [joinLines]
    exact splitLines_single l (h l (by simp))
  | l :: l2 :: rest, _, h => by
    have ih := splitLines_joinLines (l2 :: rest) (by simp)
      (fun x hx => h x (List.mem_cons_of_mem _ hx))
    simp only [joinLines]
    rw [splitLines_no_nl l _ (h l (by simp)), ih]

/-! ## TOML single-document facts -/

theorem isKeyChar_not_ws (c : Char) (h : isKeyChar c = true) :
    isWsCh c = false ∧ c ≠ ' ' ∧ c ≠ '\n' := by
  refine ⟨?_, ?_, ?_⟩
  · by_cases hw : isWsCh c = true
    · exfalso
      simp only [isWsCh, Bool.or_eq_true, decide_eq_true_eq] at hw
      rcases hw with ((h1 | h1) | h1) | h1 <;> subst h1 <;> exact absurd h (by decide)
    · simpa using hw
  · exact fun h1 => absurd (h1 ▸ h) (by decide)
  · exact fun h1 => absurd (h1 ▸ h) (by decide)

theorem parseTomlLine_keyTok (k : List Char) (h : isKeyTok k = true) :
    parseTomlLine k = none := by
  have hk : k ≠ [] ∧ ∀ c ∈ k, isKeyChar c = true := by
    have := h
    simp [isKeyTok, List.isEmpty_iff] at this
    exact ⟨this.1, by simpa [List.all_eq_true] using this.2⟩
  rcases hkk : k with _ | ⟨c, t⟩
  · exact absurd hkk hk.1
  · subst hkk
    have hc := hk.2 c (by simp)
    obtain ⟨hcw, hcs, _⟩ := isKeyChar_not_ws c hc
    have hnotws : ((c :: t).all isWsCh) = false := by
      simp [List.all_cons, hcw]
    have hdrop : (c :: t).dropWhile (fun x => x = ' ') = c :: t := by
      simp [List.dropWhile_cons, hcs]
    have htake : (c :: t).takeWhile isKeyChar = c :: t :=
      List.takeWhile_eq_self_iff.mpr hk.2
    have hdrop2 : (c :: t).dropWhile isKeyChar = [] :=
      List.dropWhile_eq_nil_iff.mpr hk.2
    simp [parseTomlLine, hnotws, hdrop, htake, hdrop2]

theorem tomlLines_append_err : ∀ (ls : List (List Char)) (bad : List Char),
    (∀ l ∈ ls, (parseTomlLine l).isSome = true) → parseTomlLine bad = none →
    tomlLines (ls ++ [bad]) = .error .malformedInput
  | [], bad, _, hbad => by simp [tomlLines, hbad]
  | l :: ls, bad, hok, hbad => by
    have h1 := hok l (by simp)
    rcases hpl : parseTomlLine l with _ | olk
    · rw [hpl] at h1
      simp at h1
    · have ih := tomlLines_append_err ls bad (fun x hx => hok x (by simp [hx])) hbad
      rcases olk with _ | kv
      · simp [tomlLines, hpl, ih]
      · simp [tomlLines, hpl, ih]

theorem parseTomlDoc_trailing_key (ls : List (List Char)) (k : List Char)
    (hok : ∀ l ∈ ls, (parseTomlLine l).isSome = true) (hnl : ∀ l ∈ ls, '\n' ∉ l)
    (hk : isKeyTok k = true) :
    parseTomlDoc (joinLines (ls ++ [k])) = .error .malformedInput := by
  have hkall : ∀ c ∈ k, isKeyChar c = true := by
    have := hk
    simp [isKeyTok] at this
    simpa [List.all_eq_true] using this.2
  have hknl : '\n' ∉ k := by
    intro hm
    exact absurd (hkall '\n' hm) (by decide)
  have hsplit := splitLines_joinLines (ls ++ [k]) (by simp) (by
    intro l hl
    rcases List.mem_append.mp hl with h1 | h2
    · exact hnl l h1
    · simp only [List.mem_singleton] at h2
      subst h2
      exact hknl)
  simp only [parseTomlDoc, hsplit]
  rw [tomlLines_append_err ls k hok (parseTomlLine_keyTok k hk)]

theorem chain_len (ps : List (List Char × Value)) : ps.length ≤ (chain ps).length := by
  induction ps with
  | nil => simp [chain]
  | cons p rest ih =>
    obtain ⟨sep, v⟩ := p
    obtain ⟨c, t, hct, _, _, _⟩ := renderJson_head v
    simp only [chain, hct, List.length_cons, List.length_append]
    omega

/-! # The claims -/

/-- C5: if a run's error is a broken pipe on the output destination, the
process terminates with success semantics and surfaces nothing; every other
I/O failure on the output destination is surfaced as a failure carrying
that I/O error. -/
theorem c5_broken_pipe :
    mainResult (.error (.ioError .brokenPipe)) = .success ∧
    (∀ k : IOErrorKind, k ≠ .brokenPipe →
      mainResult (.error (.ioError k)) = .failureWith (.ioError k)) := by
  refine ⟨rfl, ?_⟩
  intro k hk
  cases k with
  | brokenPipe => exact absurd rfl hk
  | notFound => rfl
  | permissionDenied => rfl
  | otherKind => rfl

/-- Witness for C5 at the concrete kind `notFound`. -/
theorem c5_broken_pipe_witness :
    IOErrorKind.notFound ≠ IOErrorKind.brokenPipe ∧
    mainResult (.error (.ioError .notFound)) = .failureWith (.ioError .notFound) :=
  ⟨by decide, c5_broken_pipe.2 .notFound (by decide)⟩

/-- C6: `can_output` is true exactly for JSON and YAML, any request naming
TOML as output format is rejected at configuration time with the
unsupported-output error, and a run whose configuration fails never touches
the input: its result is the configuration error, independent of the input
reader. -/
theorem c6_toml_output_rejected :
    (Format.can_output .Json = true ∧ Format.can_output .Yaml = true ∧
      Format.can_output .Toml = false) ∧
    (∀ s : String, Format.from_str s = .ok .Toml →
      Opt.parse_to s = .error (.unsupportedOutput (Format.name .Toml))) ∧
    (∀ (toArg : Option String) (e : OptErr) (from_fmt : Format) (isTerminal : Bool)
      (r1 r2 : Unit → List Char), resolveTo toArg = .error e →
      jytRun toArg from_fmt isTerminal r1 = .error e ∧
      jytRun toArg from_fmt isTerminal r1 = jytRun toArg from_fmt isTerminal r2) := by
  refine ⟨⟨rfl, rfl, rfl⟩, ?_, ?_⟩
  · intro s hs
    simp [Opt.parse_to, hs, Format.can_output]
  · intro toArg e ff t r1 r2 h
    constructor <;> simp [jytRun, h]

/-- Witness for C6 at the token "toml". -/
theorem c6_toml_output_rejected_witness :
    Format.from_str "toml" = .ok .Toml ∧
    Opt.parse_to "toml" = .error (.unsupportedOutput (Format.name .Toml)) ∧
    resolveTo (some "toml") = .error (.unsupportedOutput "toml") ∧
    jytRun (some "toml") .Yaml false (fun _ => []) = .error (.unsupportedOutput "toml") :=
  ⟨rfl, c6_toml_output_rejected.2.1 "toml" rfl, rfl,
    (c6_toml_output_rejected.2.2 (some "toml") (.unsupportedOutput "toml") .Yaml false
      (fun _ => []) (fun _ => ['x']) rfl).1⟩

/-- C7: format-name parsing returns JSON exactly on "json"/"j", YAML
exactly on "yaml"/"y", TOML exactly on "toml"/"t", and on every other
string fails with an unrecognized-format error carrying the offending
token. -/
theorem c7_format_names (s : String) :
    (Format.from_str s = .ok .Json ↔ (s = "json" ∨ s = "j")) ∧
    (Format.from_str s = .ok .Yaml ↔ (s = "yaml" ∨ s = "y")) ∧
    (Format.from_str s = .ok .Toml ↔ (s = "toml" ∨ s = "t")) ∧
    ((s ≠ "json" ∧ s ≠ "j" ∧ s ≠ "yaml" ∧ s ≠ "y" ∧ s ≠ "toml" ∧ s ≠ "t") →
      Format.from_str s = .error (.unrecognizedFormat s)) := by
  unfold Format.from_str
  split_ifs with h1 h2 h3
  · rcases h1 with rfl | rfl <;> refine ⟨?_, ?_, ?_, ?_⟩ <;> simp
  · rcases h2 with rfl | rfl <;> refine ⟨?_, ?_, ?_, ?_⟩ <;> simp_all
  · rcases h3 with rfl | rfl <;> refine ⟨?_, ?_, ?_, ?_⟩ <;> simp_all
  · refine ⟨?_, ?_, ?_, ?_⟩ <;> simp_all

/-- Witness for C7: one recognized and one unrecognized token. -/
theorem c7_format_names_witness :
    Format.from_str "jsonx" = .error (.unrecognizedFormat "jsonx") ∧
    Format.from_str "j" = .ok .Json :=
  ⟨(c7_format_names "jsonx").2.2.2
      ⟨by decide, by decide, by decide, by decide, by decide, by decide⟩,
    (c7_format_names "j").1.mpr (Or.inr rfl)⟩

/-- C8: with JSON output, the formatter used for every document of a run is
the one the single per-run terminal check selected, and it is the pretty
one exactly when the destination is an interactive terminal. -/
theorem c8_style_once (isTerminal : Bool) (docs : List Value) :
    (jytJsonRun isTerminal docs).map Prod.fst
        = List.replicate docs.length (chooseJsonStyle isTerminal) ∧
    (chooseJsonStyle isTerminal = .pretty ↔ isTerminal = true) := by
  constructor
  · show ((docs.map
        (⟨chooseJsonStyle isTerminal⟩ : JsonOutputS).transcode_from).map Prod.fst) = _
    rw [List.map_map]
    have hfun : (Prod.fst ∘ (⟨chooseJsonStyle isTerminal⟩ : JsonOutputS).transcode_from)
        = Function.const Value (chooseJsonStyle isTerminal) := rfl
    rw [hfun, List.map_const]
  · cases isTerminal <;> simp [chooseJsonStyle]

/-- C9: with no output format given, the run resolves the structopt default
"json" and behaves identically to a run that requested JSON explicitly. -/
theorem c9_default_json :
    resolveTo none = .ok .Json ∧
    (∀ (from_fmt : Format) (isTerminal : Bool) (readInput : Unit → List Char),
      jytRun none from_fmt isTerminal readInput
        = jytRun (some "json") from_fmt isTerminal readInput) :=
  ⟨rfl, fun _ _ _ => rfl⟩

/-- C10: a TOML-source run whose input bytes are not valid UTF-8 fails with
the UTF-8 error before any TOML parsing happens — the result is the same
for every parser and carries no transcoded output. -/
theorem c10_toml_utf8 (p q : List Char → Except TranscodeErr Value)
    (emit : Value → List Char) (bs : List Nat) (h : utf8Decode bs = none) :
    transcodeTomlBytes p emit bs = ([], some .invalidUtf8) ∧
    transcodeTomlBytes p emit bs = transcodeTomlBytes q emit bs := by
  constructor <;> simp [transcodeTomlBytes, h]

/-- Witness for C10 at the invalid byte 0xFF. -/
theorem c10_toml_utf8_witness :
    utf8Decode [255] = none ∧
    transcodeTomlBytes parseTomlDoc jsonOut [255] = ([], some .invalidUtf8) :=
  ⟨rfl, (c10_toml_utf8 parseTomlDoc (fun _ => .error .malformedInput) jsonOut [255] rfl).1⟩

/-- C1: for every document in the modelled universe and every pair of
output-capable formats, transcoding its serialization from `A` to `B` and
the result from `B` back to `A` reproduces the original serialization, and
reading it back yields a value structurally equal to the original (the
output-capability hypotheses are forced by the design: TOML cannot be a
destination, so a round trip through it is rejected at configuration). -/
theorem c1_round_trip (A B : Format) (v : Value)
    (hA : A.can_output = true) (hB : B.can_output = true) (hv : wfValue v = true) :
    ∃ s1 s2 s3, writeDoc A v = some s1 ∧ transcodeDoc A B s1 = some s2 ∧
      transcodeDoc B A s2 = some s3 ∧ s3 = s1 ∧ readDoc A s3 = some v := by
  have hid := transcodeValue_id v
  cases A with
  | Toml => exact absurd hA (by decide)
  | Json =>
    cases B with
    | Toml => exact absurd hB (by decide)
    | Json =>
      refine ⟨jsonOut v, jsonOut v, jsonOut v, rfl, ?_, ?_, rfl, readDoc_json_out v hv⟩
      · simp [transcodeDoc, readDoc_json_out v hv, hid, writeDoc]
      · simp [transcodeDoc, readDoc_json_out v hv, hid, writeDoc]
    | Yaml =>
      refine ⟨jsonOut v, yamlOutDoc v, jsonOut v, rfl, ?_, ?_, rfl, readDoc_json_out v hv⟩
      · simp [transcodeDoc, readDoc_json_out v hv, hid, writeDoc]
      · simp [transcodeDoc, readDoc_yaml_out v hv, hid, writeDoc]
  | Yaml =>
    cases B with
    | Toml => exact absurd hB (by decide)
    | Json =>
      refine ⟨yamlOutDoc v, jsonOut v, yamlOutDoc v, rfl, ?_, ?_, rfl, readDoc_yaml_out v hv⟩
      · simp [transcodeDoc, readDoc_yaml_out v hv, hid, writeDoc]
      · simp [transcodeDoc, readDoc_json_out v hv, hid, writeDoc]
    | Yaml =>
      refine ⟨yamlOutDoc v, yamlOutDoc v, yamlOutDoc v, rfl, ?_, ?_, rfl,
        readDoc_yaml_out v hv⟩
      · simp [transcodeDoc, readDoc_yaml_out v hv, hid, writeDoc]
      · simp [transcodeDoc, readDoc_yaml_out v hv, hid, writeDoc]

/-- Witness for C1: a one-entry mapping, JSON to YAML and back. -/
theorem c1_round_trip_witness :
    Format.can_output .Json = true ∧ Format.can_output .Yaml = true ∧
    wfValue (.vobj (.cons ['a'] (.vint 1) .nil)) = true ∧
    (∃ s1 s2 s3, writeDoc .Json (.vobj (.cons ['a'] (.vint 1) .nil)) = some s1 ∧
      transcodeDoc .Json .Yaml s1 = some s2 ∧ transcodeDoc .Yaml .Json s2 = some s3 ∧
      s3 = s1 ∧ readDoc .Json s3 = some (.vobj (.cons ['a'] (.vint 1) .nil))) :=
  ⟨rfl, rfl, by decide, c1_round_trip .Json .Yaml _ rfl rfl (by decide)⟩

/-- C2: the JSON stream driver transcodes a whitespace-separated stream of
self-delimiting values in input order and terminates successfully when only
trailing whitespace remains; with JSON as destination each value is emitted
followed by exactly one newline; an input whose remaining non-whitespace
data does not parse as a value (in particular a truncated value) fails the
run. -/
theorem c2_json_stream :
    (∀ (emit : Value → List Char) (ps : List (List Char × Value)) (trailing : List Char),
      chainOk ps trailing = true →
      transcodeAllJson emit (chain ps ++ trailing)
        = ((ps.map (fun p => emit p.2)).flatten, none)) ∧
    (∀ v : Value, jsonOut v = renderJson v ++ ['\n']) ∧
    (∀ (emit : Value → List Char) (cs : List Char),
      (skipWs cs).isEmpty = false → parseJsonVal (cs.length + 1) cs = none →
      transcodeAllJson emit cs = ([], some .malformedInput)) := by
  refine ⟨?_, fun _ => rfl, ?_⟩
  · intro emit ps trailing hok
    have hlen := chain_len ps
    exact jsonStreamRun_chain emit ps _ trailing hok
      (by simp only [List.length_append]; omega)
  · intro emit cs h1 h2
    exact jsonStreamRun_fail emit cs.length cs h1 h2

/-- Witness for C2: the spec's example input `1 2 3`, and the truncated
input `[`. -/
theorem c2_json_stream_witness :
    chainOk [([], Value.vint 1), ([' '], Value.vint 2), ([' '], Value.vint 3)] [] = true ∧
    chain [([], Value.vint 1), ([' '], Value.vint 2), ([' '], Value.vint 3)] ++ []
      = "1 2 3".toList ∧
    transcodeAllJson jsonOut ("1 2 3".toList) = ("1\n2\n3\n".toList, none) ∧
    (skipWs ['[']).isEmpty = false ∧ parseJsonVal (['['].length + 1) ['['] = none ∧
    transcodeAllJson jsonOut ['['] = ([], some .malformedInput) := by
  refine ⟨by decide, by decide, ?_, by decide, rfl, ?_⟩
  · have h := c2_json_stream.1 jsonOut
      [([], Value.vint 1), ([' '], Value.vint 2), ([' '], Value.vint 3)] [] (by decide)
    have e1 : chain [([], Value.vint 1), ([' '], Value.vint 2), ([' '], Value.vint 3)]
        ++ ([] : List Char) = "1 2 3".toList := by decide
    have e2 : (([([], Value.vint 1), ([' '], Value.vint 2), ([' '], Value.vint 3)].map
        (fun p => jsonOut p.2)).flatten) = "1\n2\n3\n".toList := by decide
    rw [e1, e2] at h
    exact h
  · exact c2_json_stream.2.2 jsonOut ['['] (by decide) rfl

/-- C3: the YAML driver iterates the documents the multi-document iterator
yields, in order: an empty input yields zero documents and succeeds, a
stream whose documents all transcode succeeds with their outputs in order,
and a failure at a later document leaves the output already emitted for the
earlier documents in place. -/
theorem c3_yaml_stream :
    (∀ emit : Value → List Char, yamlRun emit [] = ([], none)) ∧
    (∀ (emit : Value → List Char) (docs : List (List Char)) (vs : List Value),
      parseDocs docs = some vs →
      yamlStreamGo emit docs = ((vs.map emit).flatten, none)) ∧
    (∀ (emit : Value → List Char) (pre : List (List Char)) (d : List Char)
        (post : List (List Char)) (vs : List Value),
      parseDocs pre = some vs → parseYamlDoc d = none →
      yamlStreamGo emit (pre ++ d :: post)
        = ((vs.map emit).flatten, some .malformedInput)) := by
  refine ⟨?_, yamlStreamGo_ok, yamlStreamGo_err⟩
  intro emit
  simp [yamlRun, yamlDocsSplit, yamlStreamGo]

/-- Witness for C3: a good first document, then one that fails mid-value. -/
theorem c3_yaml_stream_witness :
    parseDocs [['1']] = some [Value.vint 1] ∧
    parseYamlDoc ['['] = none ∧
    yamlStreamGo jsonOut ([['1']] ++ ['['] :: [])
      = (([Value.vint 1].map jsonOut).flatten, some .malformedInput) ∧
    yamlRun jsonOut [] = ([], none) :=
  ⟨rfl, rfl, c3_yaml_stream.2.2 jsonOut [['1']] ['['] [] [Value.vint 1] rfl rfl,
    c3_yaml_stream.1 jsonOut⟩

/-- C4: a TOML run parses and transcodes the whole input buffer as exactly
one document — a successful run's output is that one document's emission —
and input carrying a trailing bare top-level key after the fully-parsed
table lines is rejected as malformed. -/
theorem c4_toml_single_doc :
    (∀ (emit : Value → List Char) (bs : List Nat) (cs : List Char) (v : Value),
      utf8Decode bs = some cs → parseTomlDoc cs = .ok v →
      transcodeTomlBytes parseTomlDoc emit bs = (emit v, none)) ∧
    (∀ (emit : Value → List Char) (ls : List (List Char)) (k : List Char),
      (∀ l ∈ ls, (parseTomlLine l).isSome = true) → (∀ l ∈ ls, '\n' ∉ l) →
      isKeyTok k = true →
      transcode_all_input emit .Toml (joinLines (ls ++ [k]))
        = ([], some .malformedInput)) := by
  constructor
  · intro emit bs cs v h1 h2
    simp [transcodeTomlBytes, h1, h2]
  · intro emit ls k h1 h2 h3
    simp [transcode_all_input, parseTomlDoc_trailing_key ls k h1 h2 h3]

/-- Witness for C4: the single document `a = 1`, and the same document with
a trailing bare key `b`. -/
theorem c4_toml_single_doc_witness :
    utf8Decode [97, 32, 61, 32, 49] = some ['a', ' ', '=', ' ', '1'] ∧
    parseTomlDoc ['a', ' ', '=', ' ', '1'] = .ok (.vobj (.cons ['a'] (.vint 1) .nil)) ∧
    transcodeTomlBytes parseTomlDoc jsonOut [97, 32, 61, 32, 49]
      = (jsonOut (.vobj (.cons ['a'] (.vint 1) .nil)), none) ∧
    transcode_all_input jsonOut .Toml (joinLines ([['a', ' ', '=', ' ', '1']] ++ [['b']]))
      = ([], some .malformedInput) :=
  ⟨rfl, rfl,
    c4_toml_single_doc.1 jsonOut [97, 32, 61, 32, 49] ['a', ' ', '=', ' ', '1']
      (.vobj (.cons ['a'] (.vint 1) .nil)) rfl rfl,
    c4_toml_single_doc.2 jsonOut [['a', ' ', '=', ' ', '1']] ['b']
      (by decide) (by decide) (by decide)⟩
